import Mathlib

/-!
Verification of the EEG-import tutorial script.

The script performs five straight-line steps on an in-memory EEG recording:
load an EDF file, rename channels via the Python expression `s.strip(".")`,
drop the channels "T9" and "T10", assign the "easycap-M1" montage with
case-insensitive matching, and re-reference to the channel average.

The per-label rename transformation is embedded directly from the source
(Python `str.strip` semantics).  The four recording operations are calls
into an external signal-processing library whose code is not part of this
repository; they are modelled from the specification's contracts.
-/

/-- Python `str.strip(chars)`: remove from both ends of the string every
character contained in `chars`.  Strings are embedded as `List Char`. -/
def pyStrip (chars : List Char) (s : List Char) : List Char :=
  (((s.dropWhile (fun c => chars.contains c)).reverse).dropWhile
      (fun c => chars.contains c)).reverse

/-- The script's rename lambda `lambda s: s.strip(".")`. -/
def renameLabel (s : List Char) : List Char := pyStrip ['.'] s

/-- Definition following the spec's words for step 2: strip only the
trailing "." characters of a label, leaving leading dots in place. -/
def specStripTrailing (s : List Char) : List Char :=
  ((s.reverse).dropWhile (fun c => c = '.')).reverse

/-- Definition following the spec's words: strip only the leading "."
characters of a label. -/
def specStripLeading (s : List Char) : List Char :=
  s.dropWhile (fun c => c = '.')

/-- A label is edge-clean when neither its first nor its last character is
a dot. -/
def edgeClean (l : List Char) : Prop :=
  l.head? ≠ some '.' ∧ l.getLast? ≠ some '.'

/-!
## The recording model

The recording operations (`rename_channels`, `drop_channels`, `set_montage`,
`set_eeg_reference`) are implemented by the external library, not by this
repository; each is modelled from the spec's contract for the step.
Sample values are embedded as rationals (exact arithmetic in place of the
library's floating point), a channel's signal as a function from sample
index to value.
-/

/-- One data channel: a label, an optional assigned 3D electrode position,
and a sample sequence. -/
structure Channel where
  label : List Char
  pos : Option (ℚ × ℚ × ℚ)
  data : Nat → ℚ

/-- The in-memory EEG recording: an ordered sequence of named channels. -/
structure Recording where
  channels : List Channel

/-- The recording's channel names, in order. -/
def Recording.chNames (r : Recording) : List (List Char) :=
  r.channels.map (fun ch => ch.label)

/-- Modelled from the spec: step 2 applies a per-label transformation to
every channel name ("apply a per-label transformation ... from every
channel name. Pure function over the label set"). -/
def Recording.rename_channels (r : Recording) (f : List Char → List Char) :
    Recording :=
  ⟨r.channels.map (fun ch => { ch with label := f ch.label })⟩

/-- Modelled from the spec: step 4 removes the named channels from the
recording and "fails if either name is absent (unhandled by this
script)". -/
def Recording.drop_channels (r : Recording) (names : List (List Char)) :
    Except String Recording :=
  if names.all (fun n => r.chNames.contains n) then
    Except.ok ⟨r.channels.filter (fun ch => !(names.contains ch.label))⟩
  else
    Except.error "drop: missing channel"

/-- A montage: a catalog of electrode labels with 3D positions. -/
abbrev Montage : Type := List (List Char × (ℚ × ℚ × ℚ))

/-- Lower-case a label, for case-insensitive matching. -/
def lowerLabel (s : List Char) : List Char := s.map Char.toLower

/-- First montage entry whose label matches `lbl` case-insensitively. -/
def findPos (m : Montage) (lbl : List Char) : Option (ℚ × ℚ × ℚ) :=
  (List.find? (fun e => lowerLabel e.1 == lowerLabel lbl) m).map
    (fun e => e.2)

/-- Modelled from the spec: step 5 binds "the recording's remaining channel
labels to 3D positions from the montage, using case-insensitive label
matching. Fails if a channel cannot be matched (unhandled)". -/
def Recording.set_montage (r : Recording) (m : Montage) :
    Except String Recording :=
  if r.channels.all (fun ch => (findPos m ch.label).isSome) then
    Except.ok ⟨r.channels.map (fun ch => { ch with pos := findPos m ch.label })⟩
  else
    Except.error "montage: unmatched channel"

/-- Per-sample arithmetic mean across all channels. -/
def Recording.sampleMean (r : Recording) (t : Nat) : ℚ :=
  (r.channels.map (fun ch => ch.data t)).sum / (r.channels.length : ℚ)

/-- Modelled from the spec: step 6 recomputes "each channel's signal
relative to the average across all channels", i.e. subtracts the
per-sample mean from every channel. -/
def Recording.set_eeg_reference (r : Recording) : Recording :=
  ⟨r.channels.map (fun ch =>
    { ch with data := fun t => ch.data t - r.sampleMean t })⟩

/-- The channel name "T9". -/
def t9name : List Char := ['T', '9']

/-- The channel name "T10". -/
def t10name : List Char := ['T', '1', '0']

/-- The channel names dropped by the script: `["T9", "T10"]`. -/
def dropNames : List (List Char) := [t9name, t10name]

/-- The post-load pipeline: rename, drop, montage assignment,
re-reference, with each library failure propagated (the script handles
none of them). -/
def pipelineSteps (m : Montage) (r : Recording) : Except String Recording :=
  match (r.rename_channels renameLabel).drop_channels dropNames with
  | Except.error e => Except.error e
  | Except.ok r2 =>
    match r2.set_montage m with
    | Except.error e => Except.error e
    | Except.ok r3 => Except.ok r3.set_eeg_reference

/-- The script as a state trace: runs the steps in order and returns the
recording state when execution stops together with the unhandled error,
if any.  A failing step leaves the mutations of the completed steps in
effect and no later step runs. -/
def runScript (m : Montage) (r0 : Recording) : Recording × Option String :=
  let r1 := r0.rename_channels renameLabel
  match r1.drop_channels dropNames with
  | Except.error e => (r1, some e)
  | Except.ok r2 =>
    match r2.set_montage m with
    | Except.error e => (r2, some e)
    | Except.ok r3 => (r3.set_eeg_reference, none)

/-- A channel builder with a constant signal, used for concrete inputs. -/
def mkChannel (l : List Char) (v : ℚ) : Channel :=
  ⟨l, none, fun _ => v⟩

/-- The empty recording, used as a fallback value. -/
def emptyRec : Recording := ⟨[]⟩

/-- A concrete montage fixture with upper-case labels, exercising
case-insensitive matching. -/
def montageEx : Montage :=
  [(['F', 'P', '1'], (1, 2, 3)), (['C', 'Z'], (0, 0, 1))]

/-- A concrete recording fixture on which the whole pipeline succeeds. -/
def recEx : Recording :=
  ⟨[mkChannel ['F', 'p', '1', '.'] 1, mkChannel ['T', '9'] 2,
    mkChannel ['T', '1', '0'] 3, mkChannel ['C', 'z'] 4]⟩

/-- A concrete recording fixture missing "T9", so the drop step fails. -/
def recNoT9 : Recording := ⟨[mkChannel ['C', 'z'] 1]⟩

/-- A one-channel recording fixture for the montage step. -/
def recFp1 : Recording := ⟨[mkChannel ['F', 'p', '1'] 1]⟩

/-- The channel of `recFp1` after montage assignment. -/
def chFp1pos : Channel :=
  { mkChannel ['F', 'p', '1'] 1 with pos := findPos montageEx ['F', 'p', '1'] }

/-- The recording `recFp1` after montage assignment. -/
def recFp1pos : Recording := ⟨[chFp1pos]⟩

-- ## Basic facts about `dropWhile`

theorem head?_dropWhile_not (p : Char → Bool) (l : List Char) (c : Char)
    (h : (l.dropWhile p).head? = some c) : p c = false := by
  induction l with
  | nil => simp at h
  | cons a t ih =>
    by_cases hp : p a
    · rw [List.dropWhile_cons_of_pos hp] at h
      exact ih h
    · rw [List.dropWhile_cons_of_neg hp] at h
      simp at h
      subst h
      simpa using hp

theorem dropWhile_eq_self_of_head (p : Char → Bool) (l : List Char)
    (h : ∀ c, l.head? = some c → p c = false) : l.dropWhile p = l := by
  cases l with
  | nil => rfl
  | cons a t =>
    have ha : p a = false := h a rfl
    simp [List.dropWhile_cons, ha]

theorem getLast?_dropWhile (p : Char → Bool) (l : List Char)
    (h : l.dropWhile p ≠ []) : (l.dropWhile p).getLast? = l.getLast? := by
  obtain ⟨t, ht⟩ := (List.dropWhile_suffix (l := l) p)
  conv_rhs => rw [← ht]
  exact (List.getLast?_append_of_ne_nil t h).symm

theorem dropWhile_replicate_append (p : Char → Bool) (c : Char)
    (hc : p c = true) (n : Nat) (l : List Char) :
    (List.replicate n c ++ l).dropWhile p = l.dropWhile p := by
  induction n with
  | zero => simp
  | succ k ih => simp [List.replicate_succ, List.dropWhile_cons, hc, ih]

theorem dot_contains (c : Char) : (['.'].contains c) = (c == '.') := by
  by_cases h : c = '.' <;> simp [List.contains, h]

theorem edgeClean_renameLabel (s : List Char) : edgeClean (renameLabel s) := by
  unfold renameLabel pyStrip
  by_cases hBnil :
      (s.dropWhile (fun c => (['.'] : List Char).contains c)).reverse.dropWhile
        (fun c => (['.'] : List Char).contains c) = []
  · rw [hBnil]
    simp [edgeClean]
  constructor
  · -- first character of the result is the last character kept by the
    -- trailing pass, which is the first character of the leading pass,
    -- and that is not a dot.
    intro hhead
    rw [List.head?_reverse] at hhead
    rw [getLast?_dropWhile _ _ hBnil] at hhead
    rw [List.getLast?_reverse] at hhead
    have := head?_dropWhile_not (fun c => (['.'] : List Char).contains c)
      s '.' hhead
    exact absurd this (by decide)
  · -- last character of the result is the head of a `dropWhile`, hence
    -- not a dot.
    intro hlast
    rw [List.getLast?_reverse] at hlast
    have := head?_dropWhile_not (fun c => (['.'] : List Char).contains c)
      _ '.' hlast
    exact absurd this (by decide)

theorem renameLabel_eq_self_of_edgeClean (l : List Char)
    (h : edgeClean l) : renameLabel l = l := by
  obtain ⟨h1, h2⟩ := h
  unfold renameLabel pyStrip
  have step1 : l.dropWhile (fun c => (['.'] : List Char).contains c) = l := by
    apply dropWhile_eq_self_of_head
    intro c hc
    rw [dot_contains]
    simp only [beq_eq_false_iff_ne, ne_eq]
    intro hcdot
    exact h1 (hcdot ▸ hc)
  rw [step1]
  have step2 : l.reverse.dropWhile (fun c => (['.'] : List Char).contains c)
      = l.reverse := by
    apply dropWhile_eq_self_of_head
    intro c hc
    rw [List.head?_reverse] at hc
    rw [dot_contains]
    simp only [beq_eq_false_iff_ne, ne_eq]
    intro hcdot
    exact h2 (hcdot ▸ hc)
  rw [step2, List.reverse_reverse]

-- ## Helper facts about the operations' effect on channel names

theorem chNames_rename (r : Recording) (f : List Char → List Char) :
    (r.rename_channels f).chNames = r.chNames.map f := by
  simp only [Recording.rename_channels, Recording.chNames, List.map_map]
  rfl

theorem dotPred_eq :
    (fun c => (['.'] : List Char).contains c) = (fun c : Char => c = '.') := by
  funext c
  rw [dot_contains]
  by_cases h : c = '.' <;> simp [h]

theorem dot_contains_false_of_ne (c : Char) (h : c ≠ '.') :
    (['.'].contains c) = false := by
  rw [dot_contains]
  simpa using h

/-- C1: the claim states the rename transformation equals stripping only
trailing dots; on the label ".Fp1" the code also removes the leading dot,
so the two functions differ. -/
theorem c1_strip_trailing_only_cex :
    renameLabel ['.', 'F', 'p', '1'] ≠ specStripTrailing ['.', 'F', 'p', '1'] := by
  decide

/-- C1 (amended): the rename step's per-label transformation strips "."
characters from BOTH ends of the label: it equals stripping trailing dots
composed with stripping leading dots, leaving all interior characters in
place. -/
theorem c1_rename_strips_both_ends (s : List Char) :
    renameLabel s = specStripTrailing (specStripLeading s) := by
  unfold renameLabel pyStrip specStripTrailing specStripLeading
  rw [dotPred_eq]

/-- C1 amended witness at the concrete label ".Fp1". -/
theorem c1_rename_strips_both_ends_witness :
    renameLabel ['.', 'F', 'p', '1']
      = specStripTrailing (specStripLeading ['.', 'F', 'p', '1']) :=
  c1_rename_strips_both_ends ['.', 'F', 'p', '1']

/-- C9: on a label made of leading dots, a dot-free-ended core and trailing
dots, the rename transformation returns the core; a label with no dot at
either end is returned unchanged. -/
theorem c9_rename_removes_leading_and_trailing (a b : Nat) (core : List Char)
    (h1 : core.head? ≠ some '.') (h2 : core.getLast? ≠ some '.') :
    renameLabel (List.replicate a '.' ++ core ++ List.replicate b '.') = core
      ∧ renameLabel core = core := by
  refine ⟨?_, renameLabel_eq_self_of_edgeClean core ⟨h1, h2⟩⟩
  unfold renameLabel pyStrip
  rw [List.append_assoc,
    dropWhile_replicate_append _ '.' (by decide) a (core ++ List.replicate b '.')]
  cases core with
  | nil =>
    rw [List.nil_append,
      ← List.append_nil (List.replicate b '.'),
      dropWhile_replicate_append _ '.' (by decide) b []]
    simp
  | cons c rest =>
    have hc : c ≠ '.' := by
      intro hcd
      exact h1 (by rw [hcd]; rfl)
    have hstep1 :
        ((c :: rest) ++ List.replicate b '.').dropWhile
          (fun x => (['.'] : List Char).contains x)
          = (c :: rest) ++ List.replicate b '.' := by
      apply dropWhile_eq_self_of_head
      intro x hx
      simp only [List.cons_append, List.head?_cons, Option.some.injEq] at hx
      rw [← hx]
      exact dot_contains_false_of_ne c hc
    rw [hstep1, List.reverse_append, List.reverse_replicate,
      dropWhile_replicate_append _ '.' (by decide) b (c :: rest).reverse]
    have hstep2 :
        ((c :: rest).reverse).dropWhile (fun x => (['.'] : List Char).contains x)
          = (c :: rest).reverse := by
      apply dropWhile_eq_self_of_head
      intro x hx
      rw [List.head?_reverse] at hx
      apply dot_contains_false_of_ne
      intro hxd
      exact h2 (by rw [← hxd]; exact hx)
    rw [hstep2, List.reverse_reverse]

/-- C9 witness: "..Fp1." strips to "Fp1", and "Fp1" is unchanged. -/
theorem c9_rename_removes_leading_and_trailing_witness :
    renameLabel (List.replicate 2 '.' ++ ['F', 'p', '1'] ++ List.replicate 1 '.')
        = ['F', 'p', '1']
      ∧ renameLabel ['F', 'p', '1'] = ['F', 'p', '1'] :=
  c9_rename_removes_leading_and_trailing 2 1 ['F', 'p', '1']
    (by decide) (by decide)

/-- C10: the rename transformation is idempotent. -/
theorem c10_rename_idempotent (s : List Char) :
    renameLabel (renameLabel s) = renameLabel s :=
  renameLabel_eq_self_of_edgeClean (renameLabel s) (edgeClean_renameLabel s)

/-- C4: after the rename step, no channel name ends with the character
".". -/
theorem c4_no_trailing_dot_after_rename (r : Recording) (l : List Char)
    (h : l ∈ (r.rename_channels renameLabel).chNames) :
    l.getLast? ≠ some '.' := by
  rw [chNames_rename] at h
  obtain ⟨l0, _, hl0⟩ := List.mem_map.mp h
  exact hl0 ▸ (edgeClean_renameLabel l0).2

/-- C4 witness: renaming a recording whose only channel is "Fp1." yields
the channel name "Fp1", which does not end in a dot. -/
theorem c4_no_trailing_dot_after_rename_witness :
    (['F', 'p', '1'] : List Char).getLast? ≠ some '.' :=
  c4_no_trailing_dot_after_rename
    (Recording.mk [mkChannel ['F', 'p', '1', '.'] 0]) ['F', 'p', '1']
    (by simp [Recording.rename_channels, Recording.chNames, mkChannel]; decide)

-- ## The drop step

theorem contains_eq_decide_mem (L : List (List Char)) (a : List Char) :
    L.contains a = decide (a ∈ L) := by
  simp [List.contains, List.elem_eq_mem]

theorem dropNames_contains_false (a : List Char)
    (h9 : a ≠ t9name) (h10 : a ≠ t10name) : dropNames.contains a = false := by
  rw [contains_eq_decide_mem]
  simp [dropNames, h9, h10]

theorem drop_cond_true (r : Recording)
    (h9 : t9name ∈ r.chNames) (h10 : t10name ∈ r.chNames) :
    dropNames.all (fun n => r.chNames.contains n) = true := by
  rw [List.all_eq_true]
  intro n hn
  rw [contains_eq_decide_mem]
  simp only [dropNames, List.mem_cons, List.not_mem_nil, or_false] at hn
  rcases hn with h | h <;> subst h <;> simpa

theorem chNames_filter_channels (r : Recording) (names : List (List Char)) :
    (Recording.mk (r.channels.filter
        (fun ch => !(names.contains ch.label)))).chNames
      = r.chNames.filter (fun l => !(names.contains l)) := by
  simp only [Recording.chNames, List.filter_map]
  rfl

theorem countP_dropNames (N : List (List Char)) (hnd : N.Nodup) :
    N.countP (fun l => dropNames.contains l)
      = (if t9name ∈ N then 1 else 0) + (if t10name ∈ N then 1 else 0) := by
  induction N with
  | nil => simp
  | cons a N' ih =>
    rw [List.nodup_cons] at hnd
    obtain ⟨ha, hnd'⟩ := hnd
    rw [List.countP_cons, ih hnd']
    have hc9 : dropNames.contains t9name = true := by
      rw [contains_eq_decide_mem]
      simp [dropNames]
    have hc10 : dropNames.contains t10name = true := by
      rw [contains_eq_decide_mem]
      simp [dropNames]
    have hne : t9name ≠ t10name := by decide
    by_cases h9 : a = t9name
    · subst h9
      by_cases h10m : t10name ∈ N' <;>
        simp [hc9, List.mem_cons, ha, hne.symm, h10m] <;>
          simp [dropNames]
    · by_cases h10 : a = t10name
      · subst h10
        by_cases h9m : t9name ∈ N' <;>
          simp [hc10, List.mem_cons, ha, hne, h9m] <;>
            simp [dropNames]
      · have hcf : dropNames.contains a = false :=
          dropNames_contains_false a h9 h10
        have h9' : t9name ≠ a := fun hh => h9 hh.symm
        have h10' : t10name ≠ a := fun hh => h10 hh.symm
        by_cases h9m : t9name ∈ N' <;> by_cases h10m : t10name ∈ N' <;>
          simp [hcf, List.mem_cons, h9', h10', h9m, h10m] <;>
            simp [dropNames, h9, h10]

theorem not_bool_eq_decide_not (b : Bool) : (!b) = decide (¬ b = true) := by
  cases b <;> rfl

/-- C2: when the channel set contains "T9" and "T10" (and channel names
are unique, as the spec assumes), the drop step succeeds; afterwards the
channel set contains neither name, its size is exactly two less, and every
channel with a different label is kept. -/
theorem c2_drop_postcondition (r : Recording)
    (h9 : t9name ∈ r.chNames) (h10 : t10name ∈ r.chNames)
    (hnd : r.chNames.Nodup) :
    ∃ r', r.drop_channels dropNames = Except.ok r'
      ∧ t9name ∉ r'.chNames ∧ t10name ∉ r'.chNames
      ∧ r'.channels.length + 2 = r.channels.length
      ∧ ∀ ch ∈ r.channels, ch.label ≠ t9name → ch.label ≠ t10name →
          ch ∈ r'.channels := by
  have hcond := drop_cond_true r h9 h10
  refine ⟨⟨r.channels.filter (fun ch => !(dropNames.contains ch.label))⟩,
    ?_, ?_, ?_, ?_, ?_⟩
  · rw [Recording.drop_channels, if_pos hcond]
  · rw [chNames_filter_channels]
    intro hmem
    rw [List.mem_filter] at hmem
    have : dropNames.contains t9name = true := by
      rw [contains_eq_decide_mem]
      simp [dropNames]
    rw [this] at hmem
    exact absurd hmem.2 (by simp)
  · rw [chNames_filter_channels]
    intro hmem
    rw [List.mem_filter] at hmem
    have : dropNames.contains t10name = true := by
      rw [contains_eq_decide_mem]
      simp [dropNames]
    rw [this] at hmem
    exact absurd hmem.2 (by simp)
  · have hlen : (Recording.mk (r.channels.filter
        (fun ch => !(dropNames.contains ch.label)))).chNames.length
          + 2 = r.chNames.length := by
      rw [chNames_filter_channels]
      rw [← List.countP_eq_length_filter]
      have hsplit := List.length_eq_countP_add_countP
        (fun l => dropNames.contains l) r.chNames
      have hcnt := countP_dropNames r.chNames hnd
      rw [if_pos h9, if_pos h10] at hcnt
      have hnotP : r.chNames.countP (fun l => !(dropNames.contains l))
          = r.chNames.countP
            (fun a => decide (¬ (dropNames.contains a) = true)) := by
        apply List.countP_congr
        intro a _
        rw [not_bool_eq_decide_not (dropNames.contains a)]
      rw [hnotP]
      omega
    simpa only [Recording.chNames, List.length_map] using hlen
  · intro ch hch hne9 hne10
    rw [List.mem_filter]
    refine ⟨hch, ?_⟩
    rw [dropNames_contains_false ch.label hne9 hne10]
    simp

/-- C2 witness at a concrete four-channel recording. -/
theorem c2_drop_postcondition_witness :
    ∃ r', (Recording.mk [mkChannel ['F', 'p', '1'] 1, mkChannel t9name 2,
        mkChannel t10name 3, mkChannel ['C', 'z'] 4]).drop_channels dropNames
          = Except.ok r'
      ∧ t9name ∉ r'.chNames ∧ t10name ∉ r'.chNames
      ∧ r'.channels.length + 2
          = (Recording.mk [mkChannel ['F', 'p', '1'] 1, mkChannel t9name 2,
              mkChannel t10name 3, mkChannel ['C', 'z'] 4]).channels.length
      ∧ ∀ ch ∈ (Recording.mk [mkChannel ['F', 'p', '1'] 1, mkChannel t9name 2,
          mkChannel t10name 3, mkChannel ['C', 'z'] 4]).channels,
          ch.label ≠ t9name → ch.label ≠ t10name → ch ∈ r'.channels :=
  c2_drop_postcondition _ (by decide) (by decide) (by decide)

/-- C5: the drop step succeeds exactly when both "T9" and "T10" are
present in the channel set; it fails whenever either name is absent. -/
theorem c5_drop_error_iff_absent (r : Recording) :
    (r.drop_channels dropNames).isOk = true
      ↔ (t9name ∈ r.chNames ∧ t10name ∈ r.chNames) := by
  constructor
  · intro hok
    rw [Recording.drop_channels] at hok
    by_cases hcond : dropNames.all (fun n => r.chNames.contains n) = true
    · rw [List.all_eq_true] at hcond
      constructor
      · have := hcond t9name (by simp [dropNames])
        rw [contains_eq_decide_mem] at this
        simpa using this
      · have := hcond t10name (by simp [dropNames])
        rw [contains_eq_decide_mem] at this
        simpa using this
    · rw [if_neg hcond] at hok
      simp [Except.isOk, Except.toBool] at hok
  · intro ⟨h9, h10⟩
    rw [Recording.drop_channels, if_pos (drop_cond_true r h9 h10)]
    rfl

-- ## The re-reference step

theorem sum_map_sub_const (l : List Channel) (f : Channel → ℚ) (c : ℚ) :
    (l.map (fun ch => f ch - c)).sum = (l.map f).sum - l.length * c := by
  induction l with
  | nil => simp
  | cons a t ih =>
    simp only [List.map_cons, List.sum_cons, ih, List.length_cons]
    push_cast
    ring

/-- C3: after the re-reference step, the arithmetic mean across all
channels at every sample index is zero (exactly, in the rational
embedding). -/
theorem c3_rereference_zero_mean (r : Recording) (t : Nat) :
    (r.set_eeg_reference).sampleMean t = 0 := by
  have hmap : (Recording.set_eeg_reference r).channels.map (fun ch => ch.data t)
      = r.channels.map (fun ch => ch.data t - r.sampleMean t) := by
    simp only [Recording.set_eeg_reference, List.map_map]
    rfl
  have hlen : (Recording.set_eeg_reference r).channels.length
      = r.channels.length := by
    simp [Recording.set_eeg_reference]
  rw [Recording.sampleMean, hmap, hlen,
    sum_map_sub_const r.channels (fun ch => ch.data t) (r.sampleMean t)]
  by_cases hn : r.channels.length = 0
  · rw [List.length_eq_zero] at hn
    simp [hn, Recording.sampleMean]
  · have hne : ((r.channels.length : ℚ)) ≠ 0 := Nat.cast_ne_zero.mpr hn
    rw [Recording.sampleMean, mul_div_cancel₀ _ hne]
    simp

-- ## The montage step

theorem findPos_isSome_iff (m : Montage) (lbl : List Char) :
    (findPos m lbl).isSome = true
      ↔ ∃ e ∈ m, lowerLabel e.1 = lowerLabel lbl := by
  rw [findPos]
  cases hf : List.find? (fun e => lowerLabel e.1 == lowerLabel lbl) m with
  | none =>
    simp only [Option.map_none', Option.isSome_none, Bool.false_eq_true,
      false_iff]
    intro ⟨e, hem, heq⟩
    have : (List.find? (fun e => lowerLabel e.1 == lowerLabel lbl) m).isSome
        = true := by
      rw [List.find?_isSome]
      exact ⟨e, hem, by simpa using heq⟩
    rw [hf] at this
    simp at this
  | some e =>
    simp only [Option.map_some', Option.isSome_some, true_iff]
    exact ⟨e, List.mem_of_find?_eq_some hf, by simpa using List.find?_some hf⟩

/-- C6: the montage step succeeds exactly when every remaining channel has
a case-insensitive match in the montage, and on success every channel is
assigned the 3D position of a montage entry whose label matches its own
case-insensitively. -/
theorem c6_montage_case_insensitive (m : Montage) (r : Recording) :
    ((r.set_montage m).isOk = true
        ↔ ∀ ch ∈ r.channels, ∃ e ∈ m, lowerLabel e.1 = lowerLabel ch.label)
      ∧ ∀ r', r.set_montage m = Except.ok r' →
          ∀ ch ∈ r'.channels, ch.pos.isSome = true
            ∧ ∃ e ∈ m, lowerLabel e.1 = lowerLabel ch.label
              ∧ ch.pos = some e.2 := by
  constructor
  · rw [Recording.set_montage]
    by_cases hcond : r.channels.all (fun ch => (findPos m ch.label).isSome)
        = true
    · rw [if_pos hcond]
      simp only [Except.isOk, Except.toBool, true_iff]
      rw [List.all_eq_true] at hcond
      intro ch hch
      exact (findPos_isSome_iff m ch.label).mp (hcond ch hch)
    · rw [if_neg hcond]
      simp only [Except.isOk, Except.toBool, Bool.false_eq_true, false_iff]
      intro hall
      apply hcond
      rw [List.all_eq_true]
      intro ch hch
      exact (findPos_isSome_iff m ch.label).mpr (hall ch hch)
  · intro r' hok ch hch
    rw [Recording.set_montage] at hok
    by_cases hcond : r.channels.all (fun ch => (findPos m ch.label).isSome)
        = true
    · rw [if_pos hcond] at hok
      injection hok with hok
      subst hok
      obtain ⟨ch0, hch0, hch0eq⟩ := List.mem_map.mp hch
      rw [List.all_eq_true] at hcond
      have hsome := hcond ch0 hch0
      rw [Option.isSome_iff_exists] at hsome
      obtain ⟨v, hv⟩ := hsome
      rw [findPos, Option.map_eq_some'] at hv
      obtain ⟨e, hfind, hev⟩ := hv
      have hem := List.mem_of_find?_eq_some hfind
      have hpe : lowerLabel e.1 = lowerLabel ch0.label := by
        simpa using List.find?_some hfind
      have hpos : ch.pos = findPos m ch0.label := by
        rw [← hch0eq]
      have hlbl : ch.label = ch0.label := by
        rw [← hch0eq]
      refine ⟨?_, e, hem, ?_, ?_⟩
      · rw [hpos, findPos, hfind]
        rfl
      · rw [hlbl]
        exact hpe
      · rw [hpos, findPos, hfind, Option.map_some', hev]
    · rw [if_neg hcond] at hok
      exact absurd hok (by simp)

/-- C6 witness: "Fp1" matches the montage entry "FP1" case-insensitively
and is assigned its position. -/
theorem c6_montage_case_insensitive_witness :
    chFp1pos.pos.isSome = true
      ∧ ∃ e ∈ montageEx, lowerLabel e.1 = lowerLabel chFp1pos.label
        ∧ chFp1pos.pos = some e.2 :=
  (c6_montage_case_insensitive montageEx recFp1).2 recFp1pos (by rfl)
    chFp1pos (List.mem_cons_self _ _)

-- ## Channel names across the later steps

theorem chNames_set_eeg (r : Recording) :
    (r.set_eeg_reference).chNames = r.chNames := by
  simp only [Recording.set_eeg_reference, Recording.chNames, List.map_map]
  rfl

theorem set_montage_ok_chNames (r : Recording) (m : Montage) (r' : Recording)
    (h : r.set_montage m = Except.ok r') : r'.chNames = r.chNames := by
  rw [Recording.set_montage] at h
  by_cases hcond : r.channels.all (fun ch => (findPos m ch.label).isSome)
      = true
  · rw [if_pos hcond] at h
    injection h with h
    subst h
    simp only [Recording.chNames, List.map_map]
    rfl
  · rw [if_neg hcond] at h
    exact absurd h (by simp)

theorem drop_ok_chNames (r : Recording) (names : List (List Char))
    (r' : Recording) (h : r.drop_channels names = Except.ok r') :
    r'.chNames = r.chNames.filter (fun l => !(names.contains l)) := by
  rw [Recording.drop_channels] at h
  by_cases hcond : names.all (fun n => r.chNames.contains n) = true
  · rw [if_pos hcond] at h
    injection h with h
    subst h
    exact chNames_filter_channels r names
  · rw [if_neg hcond] at h
    exact absurd h (by simp)

theorem drop_fails_of_t9_absent (r : Recording) (h : t9name ∉ r.chNames) :
    r.drop_channels dropNames = Except.error "drop: missing channel" := by
  rw [Recording.drop_channels, if_neg]
  intro hall
  rw [List.all_eq_true] at hall
  have := hall t9name (by simp [dropNames])
  rw [contains_eq_decide_mem] at this
  exact h (by simpa using this)

theorem except_ok_of_isOk {α : Type} (x : Except String α) (d : α)
    (h : x.isOk = true) : x = Except.ok (x.toOption.getD d) := by
  cases x with
  | ok a => rfl
  | error e => simp [Except.isOk, Except.toBool] at h

/-- C7: re-applying the pipeline to an already-transformed recording fails
at the drop step ("T9"/"T10" are no longer present): the mutating sequence
is not idempotent on the shared object. -/
theorem c7_second_run_fails_at_drop (m : Montage) (r r' : Recording)
    (h : pipelineSteps m r = Except.ok r') :
    pipelineSteps m r' = Except.error "drop: missing channel" := by
  cases hdrop : (r.rename_channels renameLabel).drop_channels dropNames with
  | error e =>
    simp [pipelineSteps, hdrop] at h
  | ok r2 =>
    cases hmont : r2.set_montage m with
    | error e =>
      simp [pipelineSteps, hdrop, hmont] at h
    | ok r3 =>
      simp only [pipelineSteps, hdrop, hmont, Except.ok.injEq] at h
      -- channel names of the first run's output
      have hn2 : r2.chNames = ((r.rename_channels renameLabel).chNames).filter
          (fun l => !(dropNames.contains l)) :=
        drop_ok_chNames _ _ _ hdrop
      have hn3 : r3.chNames = r2.chNames := set_montage_ok_chNames _ _ _ hmont
      have hnr' : r'.chNames = r2.chNames := by
        rw [← h, chNames_set_eeg, hn3]
      -- "T9" was dropped, so it is absent from the output
      have ht9 : t9name ∉ r'.chNames := by
        rw [hnr', hn2]
        intro hmem
        rw [List.mem_filter] at hmem
        have hc : dropNames.contains t9name = true := by
          rw [contains_eq_decide_mem]
          simp [dropNames]
        rw [hc] at hmem
        exact absurd hmem.2 (by simp)
      -- all remaining labels are fixed points of the rename transformation
      have hfixed : ∀ l ∈ r'.chNames, renameLabel l = l := by
        intro l hl
        rw [hnr', hn2, List.mem_filter, chNames_rename] at hl
        obtain ⟨l0, _, hl0⟩ := List.mem_map.mp hl.1
        rw [← hl0]
        exact renameLabel_eq_self_of_edgeClean _ (edgeClean_renameLabel l0)
      -- so the second rename is the identity on the names and the drop fails
      have hnames : (r'.rename_channels renameLabel).chNames = r'.chNames := by
        rw [chNames_rename, List.map_congr_left hfixed]
        exact List.map_id r'.chNames
      have habsent : t9name ∉ (r'.rename_channels renameLabel).chNames := by
        rw [hnames]
        exact ht9
      rw [pipelineSteps, drop_fails_of_t9_absent _ habsent]

/-- C7 witness: running the pipeline on the concrete recording succeeds,
and running it again on the output fails at the drop step. -/
theorem c7_second_run_fails_at_drop_witness :
    pipelineSteps montageEx
        ((pipelineSteps montageEx recEx).toOption.getD emptyRec)
      = Except.error "drop: missing channel" :=
  c7_second_run_fails_at_drop montageEx recEx _
    (except_ok_of_isOk _ emptyRec (by rfl))

/-- C8: when a step fails, the script performs no recovery: the pipeline's
overall result is exactly that step's error (no alternate branch ran), and
the recording state at the stop is the state left by the completed earlier
steps (post-rename when the drop failed, post-drop when the montage
assignment failed). -/
theorem c8_unhandled_failure (m : Montage) (r : Recording) (e : String)
    (h : (runScript m r).2 = some e) :
    pipelineSteps m r = Except.error e
      ∧ ((runScript m r).1 = r.rename_channels renameLabel
        ∨ ∃ r2, (r.rename_channels renameLabel).drop_channels dropNames
            = Except.ok r2 ∧ (runScript m r).1 = r2) := by
  cases hdrop : (r.rename_channels renameLabel).drop_channels dropNames with
  | error e' =>
    have hrun : runScript m r = (r.rename_channels renameLabel, some e') := by
      simp only [runScript, hdrop]
    rw [hrun] at h ⊢
    simp only [Option.some.injEq] at h
    subst h
    refine ⟨?_, Or.inl rfl⟩
    rw [pipelineSteps, hdrop]
  | ok r2 =>
    cases hmont : r2.set_montage m with
    | error e' =>
      have hrun : runScript m r = (r2, some e') := by
        simp only [runScript, hdrop, hmont]
      rw [hrun] at h ⊢
      simp only [Option.some.injEq] at h
      subst h
      constructor
      · rw [pipelineSteps, hdrop]
        simp only [hmont]
      · exact Or.inr ⟨r2, rfl, rfl⟩
    | ok r3 =>
      have hrun : runScript m r = (r3.set_eeg_reference, none) := by
        simp only [runScript, hdrop, hmont]
      rw [hrun] at h
      exact absurd h (by simp)

/-- C8 witness at a recording missing "T9": the drop step fails, the
pipeline surfaces precisely that error, and the retained state is the
post-rename recording. -/
theorem c8_unhandled_failure_witness :
    pipelineSteps montageEx recNoT9 = Except.error "drop: missing channel"
      ∧ ((runScript montageEx recNoT9).1
            = recNoT9.rename_channels renameLabel
        ∨ ∃ r2, (recNoT9.rename_channels renameLabel).drop_channels dropNames
            = Except.ok r2 ∧ (runScript montageEx recNoT9).1 = r2) :=
  c8_unhandled_failure montageEx recNoT9 "drop: missing channel" (by rfl)
